import Mathlib

/-
  Verification of the ToolUniverse result-cache layer and tool-name utilities.

  Strings are embedded as lists of characters (`Str`), so that Python's
  slicing, splitting and joining operations become ordinary list operations.
  Python dictionaries are embedded as association lists with first-match
  lookup; assignment (`d[k] = v`) is `dictSet`, which removes any previous
  binding for the key and conses the new one at the front.

  The cache subsystem (`tooluniverse/cache/memory_cache.py` and
  `tooluniverse/cache/result_cache_manager.py`) is exercised by the test
  suite of the repository but its source is not part of the checkout, so
  those components are modelled from the specification, as marked on each
  definition.  `tool_name_utils.py` is present and is embedded directly.
-/

abbrev Str := List Char

/-- First-match lookup in an association list (Python `d.get(k)` /
`k in d` when combined with `Option.isSome`). -/
def lookupA {K V : Type} [DecidableEq K] (k : K) : List (K × V) → Option V
  | [] => none
  | (k', v) :: rest => if k' = k then some v else lookupA k rest

/-- Python dictionary assignment `d[k] = v`: any previous binding for `k`
is removed and the new binding is added at the front (most recent first). -/
def dictSet {K V : Type} [DecidableEq K] (m : List (K × V)) (k : K) (v : V) :
    List (K × V) :=
  (k, v) :: m.filter (fun p => !(p.1 = k : Bool))

/-- Python dictionary deletion `del d[k]` (removing every binding of `k`). -/
def dictDel {K V : Type} [DecidableEq K] (m : List (K × V)) (k : K) :
    List (K × V) :=
  m.filter (fun p => !(p.1 = k : Bool))

/- ---------------------------------------------------------------------
   tool_name_utils.shorten_tool_name  (src/src/tooluniverse/tool_name_utils.py)
   --------------------------------------------------------------------- -/

/-- Python `name.split("_")`: always returns a non-empty list of words;
an empty input gives `[[]]`, matching `"".split("_") == [""]`. -/
def splitUnderscore : Str → List Str
  | [] => [[]]
  | c :: cs =>
    if c = '_' then [] :: splitUnderscore cs
    else
      match splitUnderscore cs with
      | [] => [[c]]
      | w :: ws => (c :: w) :: ws

/-- Python `"_".join(words)`. -/
def joinUnderscore (ws : List Str) : Str :=
  List.intercalate ['_'] ws

/-- `shorten_tool_name` from `tool_name_utils.py`: keep the first word
(category) intact, truncate the remaining words (to 4 chars in the first
pass, to 3 chars in the aggressive pass), and finally hard-truncate to
`maxLength` if the result is still too long. -/
def shorten_tool_name (name : Str) (maxLength : Nat) : Str :=
  if name.length ≤ maxLength then name
  else
    match splitUnderscore name with
    | [] => name.take maxLength
    | w0 :: rest =>
      let shortened1 := w0 :: rest.map (fun w =>
        if w.length ≤ 3 then w
        else if w.length ≤ 6 then w.take 4
        else w.take 4)
      let result1 := joinUnderscore shortened1
      let result2 :=
        if maxLength < result1.length then
          joinUnderscore (w0 :: rest.map (fun w =>
            if w.length ≤ 3 then w else w.take 3))
        else result1
      if maxLength < result2.length then result2.take maxLength else result2

/- ---------------------------------------------------------------------
   tool_name_utils.ToolNameMapper  (src/src/tooluniverse/tool_name_utils.py)
   --------------------------------------------------------------------- -/

/-- Python `str(n)`: the decimal digits of `n`, most significant first. -/
def natChars (n : Nat) : Str :=
  ((Nat.digits 10 n).map Nat.digitChar).reverse

/-- Python f-string `f"\x7bbase\x7d_\x7bcounter\x7d"` used for collision
suffixes. -/
def counterCandidate (base : Str) (counter : Nat) : Str :=
  base ++ '_' :: natChars counter

/-- One binding of `ToolNameMapper`: `_original_to_short` and
`_short_to_original` are Python dicts from strings to strings;
`_alias_to_primary` holds aliases (not involved in the shortening maps). -/
structure ToolNameMapper where
  original_to_short : List (Str × Str)
  short_to_original : List (Str × Str)
  alias_to_primary : List (Str × Str)

/-- `ToolNameMapper.__init__`: all three dictionaries start empty. -/
def ToolNameMapper.empty : ToolNameMapper :=
  ⟨[], [], []⟩

/-- The loop `while f"\x7bbase\x7d_\x7bcounter\x7d" in self._short_to_original:
counter += 1`, unfolded with explicit fuel: starting from `counter`, return
the first counter whose candidate is not a key of `shortToOriginal`.
`findCounterFuel` below supplies enough fuel for the search to always
succeed, so the fuel-exhausted fallback (returning the current counter)
is never taken; this is proved in `findCounterAux_free`. -/
def findCounterAux (shortToOriginal : List (Str × Str)) (base : Str) :
    Nat → Nat → Nat
  | counter, 0 => counter
  | counter, fuel + 1 =>
    if lookupA (counterCandidate base counter) shortToOriginal = none then
      counter
    else
      findCounterAux shortToOriginal base (counter + 1) fuel

/-- The longest key of the dictionary (0 when empty). -/
def maxKeyLen (m : List (Str × Str)) : Nat :=
  m.foldr (fun p acc => max p.1.length acc) 0

/-- Fuel for `findCounterAux`: `10 ^ (maxKeyLen m + 1)` steps always reach a
counter whose decimal rendering is longer than every key of the table. -/
def findCounterFuel (m : List (Str × Str)) : Nat :=
  10 ^ (maxKeyLen m + 1)

/-- The collision-suffix search of `ToolNameMapper.get_shortened`:
`counter = 2; while f"\x7bbase\x7d_\x7bcounter\x7d" in self._short_to_original:
counter += 1`. -/
def findCounter (shortToOriginal : List (Str × Str)) (base : Str) : Nat :=
  findCounterAux shortToOriginal base 2 (findCounterFuel shortToOriginal)

/-- The body of `ToolNameMapper.get_shortened` past the cache check: compute
`short = shorten_tool_name(original, max_length)` and, if `short` is already
registered for a different original, disambiguate with the
`f"\x7bbase\x7d_\x7bcounter\x7d"` suffix search. -/
def ToolNameMapper.newShort (m : ToolNameMapper) (original : Str)
    (maxLength : Nat) : Str :=
  let short := shorten_tool_name original maxLength
  match lookupA short m.short_to_original with
  | some owner =>
    if owner = original then short
    else
      let base := if maxLength - 3 ≤ short.length
                  then short.take (maxLength - 3) else short
      counterCandidate base (findCounter m.short_to_original base)
  | none => short

/-- `ToolNameMapper.get_shortened`: returns the cached shortened name when
one exists, otherwise the (possibly collision-disambiguated) new shortened
name, caching the bidirectional binding.  Python mutates `self`; the
embedding returns the new state explicitly. -/
def ToolNameMapper.get_shortened (m : ToolNameMapper) (original : Str)
    (maxLength : Nat) : Str × ToolNameMapper :=
  match lookupA original m.original_to_short with
  | some cached => (cached, m)
  | none =>
    let short' := m.newShort original maxLength
    (short',
      { m with
        original_to_short := dictSet m.original_to_short original short'
        short_to_original := dictSet m.short_to_original short' original })

/-- `ToolNameMapper.get_original`:
`self._short_to_original.get(shortened, shortened)`. -/
def ToolNameMapper.get_original (m : ToolNameMapper) (shortened : Str) : Str :=
  (lookupA shortened m.short_to_original).getD shortened

/-- `ToolNameMapper.add_alias`: `self._alias_to_primary[alias] = primary_name`
(the overwrite warning is only logging). -/
def ToolNameMapper.add_alias (m : ToolNameMapper) (a primary : Str) :
    ToolNameMapper :=
  { m with alias_to_primary := dictSet m.alias_to_primary a primary }

/-- Mapper states reachable through the public mutating interface starting
from a freshly constructed `ToolNameMapper` (`resolve` only composes
`get_shortened` with reads, so it adds no further states). -/
inductive ToolNameMapper.Reachable : ToolNameMapper → Prop
  | empty : ToolNameMapper.Reachable ToolNameMapper.empty
  | shorten (m : ToolNameMapper) (original : Str) (maxLength : Nat) :
      ToolNameMapper.Reachable m →
      ToolNameMapper.Reachable (m.get_shortened original maxLength).2
  | addAlias (m : ToolNameMapper) (a primary : Str) :
      ToolNameMapper.Reachable m →
      ToolNameMapper.Reachable (m.add_alias a primary)

/-- The bidirectional-consistency invariant of `ToolNameMapper`: the two
shortening dictionaries are mutually inverse. -/
def MapperInv (m : ToolNameMapper) : Prop :=
  (∀ o s, lookupA o m.original_to_short = some s →
    lookupA s m.short_to_original = some o) ∧
  (∀ s o, lookupA s m.short_to_original = some o →
    lookupA o m.original_to_short = some s)

/- ---------------------------------------------------------------------
   SingleFlight  (tooluniverse/cache/memory_cache.py, modelled from the spec)
   --------------------------------------------------------------------- -/

/-- Modelled from the spec: the `SingleFlight` bookkeeping state of
`tooluniverse/cache/memory_cache.py` (absent from the checkout), §3/§4.1:
`locks` is the table of per-key mutexes (represented by the set of keys
owning one) and `refcounts` maps each key to its count of current
holders/waiters. -/
structure SingleFlight (K : Type) where
  locks : List K
  refcounts : List (K × Nat)

/-- A fresh `SingleFlight()` with empty tables. -/
def SingleFlight.empty (K : Type) : SingleFlight K :=
  ⟨[], []⟩

/-- Modelled from the spec, §4.1 acquire: under the table lock, get-or-create
the per-key mutex and increment the refcount.  (The blocking wait on the
mutex itself has no bookkeeping effect.) -/
def SingleFlight.acquire {K : Type} [DecidableEq K] (sf : SingleFlight K)
    (k : K) : SingleFlight K :=
  { locks := if k ∈ sf.locks then sf.locks else k :: sf.locks
    refcounts :=
      match lookupA k sf.refcounts with
      | some n => dictSet sf.refcounts k (n + 1)
      | none => dictSet sf.refcounts k 1 }

/-- Modelled from the spec, §4.1 release: under the table lock, decrement the
refcount; if it reaches zero, delete both the mutex and the refcount entry.
A release of a key with no refcount entry never happens in a well-formed
trace and leaves the state unchanged. -/
def SingleFlight.release {K : Type} [DecidableEq K] (sf : SingleFlight K)
    (k : K) : SingleFlight K :=
  match lookupA k sf.refcounts with
  | some n =>
    if n - 1 = 0 then
      { locks := sf.locks.filter (fun x => !(x = k : Bool))
        refcounts := dictDel sf.refcounts k }
    else
      { sf with refcounts := dictSet sf.refcounts k (n - 1) }
  | none => sf

/-- One bookkeeping event of a SingleFlight history: a completed `acquire`
table update or a completed release table update (releases occur on every
exit path, exceptions included, because acquisition is scoped). -/
inductive SFEvent (K : Type) where
  | acq (k : K)
  | rel (k : K)

/-- Run a serialized history of acquire/release bookkeeping events (any
interleaving of the concurrent cycles, since each table update happens
atomically under the table lock). -/
def SingleFlight.run {K : Type} [DecidableEq K] (sf : SingleFlight K) :
    List (SFEvent K) → SingleFlight K
  | [] => sf
  | SFEvent.acq k :: t => (sf.acquire k).run t
  | SFEvent.rel k :: t => (sf.release k).run t

/-- Pointwise increment of a per-key counter. -/
def bumpF {K : Type} [DecidableEq K] (f : K → Nat) (k : K) : K → Nat :=
  fun x => if x = k then f x + 1 else f x

/-- Pointwise decrement of a per-key counter. -/
def decF {K : Type} [DecidableEq K] (f : K → Nat) (k : K) : K → Nat :=
  fun x => if x = k then f x - 1 else f x

/-- A history is well formed relative to the pending-holder count `f`:
every release is preceded by a matching unreleased acquire. -/
def SFValidFrom {K : Type} [DecidableEq K] (f : K → Nat) :
    List (SFEvent K) → Prop
  | [] => True
  | SFEvent.acq k :: t => SFValidFrom (bumpF f k) t
  | SFEvent.rel k :: t => 0 < f k ∧ SFValidFrom (decF f k) t

/-- The pending-holder count left over after a history. -/
def sfNet {K : Type} [DecidableEq K] (f : K → Nat) :
    List (SFEvent K) → K → Nat
  | [] => f
  | SFEvent.acq k :: t => sfNet (bumpF f k) t
  | SFEvent.rel k :: t => sfNet (decF f k) t

/-- The SingleFlight table invariant: `locks` holds exactly the keys with
pending holders, and `refcounts` binds exactly those keys to their pending
count. -/
def SFInv {K : Type} [DecidableEq K] (sf : SingleFlight K) (f : K → Nat) :
    Prop :=
  (∀ k, k ∈ sf.locks ↔ 0 < f k) ∧
  (∀ k, lookupA k sf.refcounts = if 0 < f k then some (f k) else none)

/- ---------------------------------------------------------------------
   ResultCacheManager  (tooluniverse/cache/result_cache_manager.py,
   modelled from the spec)
   --------------------------------------------------------------------- -/

/-- The composite cache slot identity (namespace, version, cache_key),
spec §3 (the `namespace` field is spelled `ns` because `namespace` is a
Lean keyword). -/
structure CKey where
  ns : Str
  ver : Str
  ck : Str
deriving DecidableEq

/-- Modelled from the spec, §3: a cache entry is the value plus creation
time and optional absolute expiry time; `expires_at = none` means no
expiration.  Time is an abstract tick count. -/
structure CacheEntry (V : Type) where
  value : V
  created_at : Nat
  expires_at : Option Nat
deriving DecidableEq

/-- Modelled from the spec, §4.2–§4.5: the manager state.  `memory` is the
bounded memory tier in most-recently-inserted-first order (the spec leaves
LRU vs least-recently-inserted open; least-recently-inserted is chosen),
`persistent` is the durable table, `queue` the pending async writes in
enqueue order. -/
structure ManagerState (V : Type) where
  memory : List (CKey × CacheEntry V)
  memSize : Nat
  persistent : List (CKey × CacheEntry V)
  queue : List (CKey × CacheEntry V)
  persistenceEnabled : Bool
  asyncPersist : Bool

/-- Modelled from the spec: an entry is expired once its `expires_at` tick
has been reached (`t` seconds after a write with `ttl = t`). -/
def isExpired {V : Type} (e : CacheEntry V) (now : Nat) : Bool :=
  match e.expires_at with
  | none => false
  | some t => t ≤ now

/-- Modelled from the spec, §4.2: insert into the bounded memory tier at the
most-recent end and evict the least recently inserted entries beyond
capacity. -/
def memInsert {V : Type} (mem : List (CKey × CacheEntry V)) (memSize : Nat)
    (k : CKey) (e : CacheEntry V) : List (CKey × CacheEntry V) :=
  (dictSet mem k e).take memSize

/-- The entry built by `set(namespace, version, key, value, ttl)`:
`expires_at` is `now + ttl` when a TTL is given, else absent. -/
def mkEntry {V : Type} (now : Nat) (v : V) (ttl : Option Nat) : CacheEntry V :=
  ⟨v, now, ttl.map (fun d => now + d)⟩

/-- Modelled from the spec, §4.5 `set`: write to the memory tier immediately;
if persistence is enabled, upsert the persistent tier synchronously or
enqueue for the async worker. -/
def ManagerState.set {V : Type} (s : ManagerState V) (now : Nat) (k : CKey)
    (v : V) (ttl : Option Nat) : ManagerState V :=
  let e := mkEntry now v ttl
  let s1 := { s with memory := memInsert s.memory s.memSize k e }
  if s.persistenceEnabled then
    if s.asyncPersist then { s1 with queue := s1.queue ++ [(k, e)] }
    else { s1 with persistent := dictSet s1.persistent k e }
  else s1

/-- Modelled from the spec, §4.5 `get`, persistent-tier half: on a persistent
hit check `expires_at` (expired ⇒ absent), otherwise backfill the memory
tier and return the value. -/
def ManagerState.getPersistent {V : Type} (s : ManagerState V) (now : Nat)
    (k : CKey) : Option V × ManagerState V :=
  match lookupA k s.persistent with
  | some e =>
    if isExpired e now then (none, s)
    else (some e.value, { s with memory := memInsert s.memory s.memSize k e })
  | none => (none, s)

/-- Modelled from the spec, §4.5 `get`: check the memory tier first; an
expired memory entry is purged lazily and treated as a miss; on a memory
miss consult the persistent tier. -/
def ManagerState.get {V : Type} (s : ManagerState V) (now : Nat) (k : CKey) :
    Option V × ManagerState V :=
  match lookupA k s.memory with
  | some e =>
    if isExpired e now then
      ManagerState.getPersistent { s with memory := dictDel s.memory k } now k
    else (some e.value, s)
  | none => ManagerState.getPersistent s now k

/-- Modelled from the spec, §4.4: drain the write queue into the persistent
tier, applying the queued upserts in enqueue order. -/
def drainQueue {V : Type} (p : List (CKey × CacheEntry V)) :
    List (CKey × CacheEntry V) → List (CKey × CacheEntry V)
  | [] => p
  | (k, e) :: rest => drainQueue (dictSet p k e) rest

/-- Modelled from the spec, §4.5 `flush`: force all queued writes to durable
storage synchronously. -/
def ManagerState.flush {V : Type} (s : ManagerState V) : ManagerState V :=
  { s with persistent := drainQueue s.persistent s.queue, queue := [] }

/-- Modelled from the spec, §4.4/§4.5 `close`: drain the entire queue before
returning (the shutdown path the async worker must honour). -/
def ManagerState.close {V : Type} (s : ManagerState V) : ManagerState V :=
  s.flush

/-- Modelled from the spec, §6: a fresh manager opened on an existing
persistent store: empty memory tier and queue, same durable table. -/
def freshManager {V : Type} (memSize : Nat)
    (persistent : List (CKey × CacheEntry V)) : ManagerState V :=
  ⟨[], memSize, persistent, [], true, false⟩

/-- The write most recently enqueued for `k` (later writes supersede earlier
ones, spec §5 ordering). -/
def lastWrite {V : Type} (q : List (CKey × CacheEntry V)) (k : CKey) :
    Option (CacheEntry V) :=
  lookupA k q.reverse

/-- One record of `dump()`: every field of the underlying entry, including a
never-missing `expires_at` (`none` renders as null). -/
structure DumpRec (V : Type) where
  ns : Str
  ver : Str
  ck : Str
  value : V
  created_at : Nat
  expires_at : Option Nat

/-- The record `dump()` emits for a stored entry. -/
def mkRec {V : Type} (k : CKey) (e : CacheEntry V) : DumpRec V :=
  ⟨k.ns, k.ver, k.ck, e.value, e.created_at, e.expires_at⟩

/-- The slot identity of a dump record. -/
def recKey {V : Type} (r : DumpRec V) : CKey :=
  ⟨r.ns, r.ver, r.ck⟩

/-- Modelled from the spec, §4.5 `dump`: the entries visible at call time —
every memory-tier entry plus every persistent entry not shadowed by a
memory binding for the same slot. -/
def visibleEntries {V : Type} (s : ManagerState V) :
    List (CKey × CacheEntry V) :=
  s.memory ++ s.persistent.filter (fun p => (lookupA p.1 s.memory).isNone)

/-- Modelled from the spec, §4.5 `dump`: enumerate the visible entries,
optionally filtered by namespace; each record carries `expires_at`. -/
def ManagerState.dump {V : Type} (s : ManagerState V) (nsFilter : Option Str) :
    List (DumpRec V) :=
  ((visibleEntries s).filter (fun p =>
      match nsFilter with
      | none => true
      | some n => (p.1.ns = n : Bool))).map (fun p => mkRec p.1 p.2)

/- ---------------------------------------------------------------------
   Cache key derivation  (modelled from the spec, §4.6)
   --------------------------------------------------------------------- -/

/-- Modelled from the spec, §4.6: a runtime tool instance.  `instanceId`
stands for the ephemeral object identity that key derivation must never
depend on; `name`, `toolType` and `cacheVersion` are the stable identity. -/
structure ToolInstance where
  name : Str
  toolType : Str
  cacheVersion : Str
  instanceId : Nat

/-- Canonical argument order: the argument keys sorted lexicographically. -/
def sortedKeys (args : List (Str × Str)) : List Str :=
  List.insertionSort (fun a b => a ≤ b) (args.map Prod.fst)

/-- Modelled from the spec, §4.6: canonicalize an argument mapping by sorting
its keys before serializing. -/
def canonicalizeArgs (args : List (Str × Str)) : List (Str × Str) :=
  (sortedKeys args).map (fun k => (k, (lookupA k args).getD []))

/-- Serialize a canonicalized argument list into the key string. -/
def serializeArgs : List (Str × Str) → Str
  | [] => []
  | (k, v) :: rest => k ++ '=' :: v ++ ';' :: serializeArgs rest

/-- Modelled from the spec, §4.6: the derived cache key depends only on the
stable tool identity (name, declared cache version) and the canonicalized
arguments — never on `instanceId`. -/
def deriveCacheKey (tool : ToolInstance) (args : List (Str × Str)) : Str :=
  tool.name ++ '|' :: tool.cacheVersion ++ '|' :: serializeArgs
    (canonicalizeArgs args)

/-- Modelled from the spec, §4.5/§4.6: one cached tool call.  On a hit the
cached value is returned; on a miss the producer runs once and the result
is written back.  The third component counts producer invocations. -/
def cachedCall {V : Type} (s : ManagerState V) (now : Nat)
    (tool : ToolInstance) (args : List (Str × Str)) (producer : Unit → V) :
    V × ManagerState V × Nat :=
  let key : CKey := ⟨tool.toolType, tool.cacheVersion, deriveCacheKey tool args⟩
  match s.get now key with
  | (some v, s') => (v, s', 0)
  | (none, s') =>
    let v := producer ()
    (v, s'.set now key v none, 1)

/- ---------------------------------------------------------------------
   Association-list lemmas
   --------------------------------------------------------------------- -/

theorem lookupA_dictSet_self {K V : Type} [DecidableEq K]
    (m : List (K × V)) (k : K) (v : V) : lookupA k (dictSet m k v) = some v := by
  simp [dictSet, lookupA]

theorem lookupA_cons {K V : Type} [DecidableEq K]
    (a : K) (b : V) (rest : List (K × V)) (k : K) :
    lookupA k ((a, b) :: rest) = if a = k then some b else lookupA k rest := rfl

theorem lookupA_filter_ne {K V : Type} [DecidableEq K]
    (m : List (K × V)) (k k' : K) (h : k' ≠ k) :
    lookupA k' (m.filter (fun p => !(p.1 = k : Bool))) = lookupA k' m := by
  induction m with
  | nil => rfl
  | cons p rest ih =>
    obtain ⟨a, b⟩ := p
    rw [List.filter_cons]
    by_cases hp : a = k
    · rw [if_neg (by simp [hp]), ih, lookupA_cons,
        if_neg (show ¬ a = k' from fun e => h (e.symm.trans hp))]
    · rw [if_pos (by simp [hp]), lookupA_cons, lookupA_cons, ih]

theorem lookupA_dictSet_ne {K V : Type} [DecidableEq K]
    (m : List (K × V)) (k k' : K) (v : V) (h : k' ≠ k) :
    lookupA k' (dictSet m k v) = lookupA k' m := by
  have : ¬ k = k' := fun hk => h hk.symm
  simp [dictSet, lookupA, this, lookupA_filter_ne m k k' h]

theorem lookupA_dictDel_self {K V : Type} [DecidableEq K]
    (m : List (K × V)) (k : K) : lookupA k (dictDel m k) = none := by
  induction m with
  | nil => rfl
  | cons p rest ih =>
    obtain ⟨a, b⟩ := p
    by_cases hp : a = k
    · simpa [dictDel, List.filter_cons, hp] using ih
    · simpa [dictDel, List.filter_cons, hp, lookupA_cons] using ih

theorem lookupA_dictDel_ne {K V : Type} [DecidableEq K]
    (m : List (K × V)) (k k' : K) (h : k' ≠ k) :
    lookupA k' (dictDel m k) = lookupA k' m :=
  lookupA_filter_ne m k k' h

theorem lookupA_append {K V : Type} [DecidableEq K]
    (a b : List (K × V)) (k : K) :
    lookupA k (a ++ b) =
      match lookupA k a with
      | some v => some v
      | none => lookupA k b := by
  induction a with
  | nil => simp [lookupA]
  | cons p rest ih =>
    by_cases hp : p.1 = k
    · simp [lookupA, hp]
    · simp [lookupA, hp, ih]

theorem lookupA_eq_none_iff {K V : Type} [DecidableEq K]
    (m : List (K × V)) (k : K) :
    lookupA k m = none ↔ ∀ v, (k, v) ∉ m := by
  induction m with
  | nil => simp [lookupA]
  | cons p rest ih =>
    obtain ⟨a, b⟩ := p
    by_cases hp : a = k
    · constructor
      · intro h; simp [lookupA_cons, hp] at h
      · intro h
        exact absurd (List.mem_cons_self (a, b) rest)
          (by rw [hp] at *; exact h b)
    · rw [lookupA_cons, if_neg hp, ih]
      constructor
      · intro h v hv
        rcases List.mem_cons.mp hv with h1 | h2
        · exact hp (congrArg Prod.fst h1.symm)
        · exact h v h2
      · intro h v hv
        exact h v (List.mem_cons_of_mem _ hv)

/- ---------------------------------------------------------------------
   C9: shorten_tool_name respects the length bound
   --------------------------------------------------------------------- -/

/-- C9: for every name and every positive maximum length,
`shorten_tool_name` returns a string of length at most `max_length`
(via the final hard-truncate fallback), and returns the name unchanged
whenever it already fits. -/
theorem shorten_tool_name_length_bound (name : Str) (maxLength : Nat)
    (hpos : 0 < maxLength) :
    (shorten_tool_name name maxLength).length ≤ maxLength ∧
      (name.length ≤ maxLength → shorten_tool_name name maxLength = name) := by
  by_cases hfit : name.length ≤ maxLength
  · simp [shorten_tool_name, hfit]
  · refine ⟨?_, fun h => absurd h hfit⟩
    unfold shorten_tool_name
    simp only [hfit, if_false]
    match splitUnderscore name with
    | [] =>
      simp only [List.length_take]
      omega
    | w0 :: rest =>
      simp only []
      split
      · split
        · simp only [List.length_take]; omega
        · omega
      · omega

/- ---------------------------------------------------------------------
   C1: SingleFlight leaves no locks behind
   --------------------------------------------------------------------- -/

theorem sfInv_acquire {K : Type} [DecidableEq K] {sf : SingleFlight K}
    {f : K → Nat} (h : SFInv sf f) (k : K) :
    SFInv (sf.acquire k) (bumpF f k) := by
  obtain ⟨h1, h2⟩ := h
  constructor
  · intro k'
    by_cases hk' : k' = k
    · have hb : bumpF f k k' = f k' + 1 := by simp [bumpF, hk']
      rw [hb]
      constructor
      · intro _; omega
      · intro _
        simp only [SingleFlight.acquire]
        by_cases hm : k ∈ sf.locks
        · rw [if_pos hm, hk']; exact hm
        · rw [if_neg hm, hk']; exact List.mem_cons_self k _
    · have hb : bumpF f k k' = f k' := by simp [bumpF, hk']
      rw [hb]
      simp only [SingleFlight.acquire]
      by_cases hm : k ∈ sf.locks
      · rw [if_pos hm]; exact h1 k'
      · rw [if_neg hm, List.mem_cons]
        constructor
        · intro hor
          rcases hor with he | hin
          · exact absurd he hk'
          · exact (h1 k').mp hin
        · intro hf'; exact Or.inr ((h1 k').mpr hf')
  · intro k'
    have h2k := h2 k
    by_cases hposk : 0 < f k
    · rw [if_pos hposk] at h2k
      simp only [SingleFlight.acquire, h2k]
      by_cases hk' : k' = k
      · subst hk'
        rw [lookupA_dictSet_self]
        have hb : bumpF f k' k' = f k' + 1 := by simp [bumpF]
        rw [hb, if_pos (by omega)]
      · rw [lookupA_dictSet_ne _ _ _ _ hk']
        have hb : bumpF f k k' = f k' := by simp [bumpF, hk']
        rw [hb, h2 k']
    · rw [if_neg hposk] at h2k
      simp only [SingleFlight.acquire, h2k]
      by_cases hk' : k' = k
      · subst hk'
        rw [lookupA_dictSet_self]
        have hb : bumpF f k' k' = f k' + 1 := by simp [bumpF]
        have hz : f k' = 0 := by omega
        rw [hb, hz, if_pos (by omega)]
      · rw [lookupA_dictSet_ne _ _ _ _ hk']
        have hb : bumpF f k k' = f k' := by simp [bumpF, hk']
        rw [hb, h2 k']

theorem sfInv_release {K : Type} [DecidableEq K] {sf : SingleFlight K}
    {f : K → Nat} (h : SFInv sf f) (k : K) (hpos : 0 < f k) :
    SFInv (sf.release k) (decF f k) := by
  obtain ⟨h1, h2⟩ := h
  have h2k := h2 k
  rw [if_pos hpos] at h2k
  by_cases hone : f k - 1 = 0
  · constructor
    · intro k'
      simp only [SingleFlight.release, h2k, if_pos hone, List.mem_filter]
      by_cases hk' : k' = k
      · simp [hk', decF, hone]
      · simp [hk', decF, h1 k']
    · intro k'
      simp only [SingleFlight.release, h2k, if_pos hone]
      by_cases hk' : k' = k
      · rw [hk', lookupA_dictDel_self]
        have hd : decF f k k = f k - 1 := by simp [decF]
        rw [hd, hone, if_neg (by omega)]
      · rw [lookupA_dictDel_ne _ _ _ hk', h2 k']
        have hd : decF f k k' = f k' := by simp [decF, hk']
        rw [hd]
  · constructor
    · intro k'
      simp only [SingleFlight.release, h2k, if_neg hone]
      by_cases hk' : k' = k
      · rw [hk']
        have hd : decF f k k = f k - 1 := by simp [decF]
        rw [hd]
        constructor
        · intro _; omega
        · intro _; exact (h1 k).mpr hpos
      · have hd : decF f k k' = f k' := by simp [decF, hk']
        rw [hd]
        exact h1 k'
    · intro k'
      simp only [SingleFlight.release, h2k, if_neg hone]
      by_cases hk' : k' = k
      · rw [hk', lookupA_dictSet_self]
        have hd : decF f k k = f k - 1 := by simp [decF]
        rw [hd, if_pos (by omega)]
      · rw [lookupA_dictSet_ne _ _ _ _ hk', h2 k']
        have hd : decF f k k' = f k' := by simp [decF, hk']
        rw [hd]

theorem sfInv_run {K : Type} [DecidableEq K] (trace : List (SFEvent K)) :
    ∀ (sf : SingleFlight K) (f : K → Nat), SFInv sf f →
      SFValidFrom f trace → SFInv (sf.run trace) (sfNet f trace) := by
  induction trace with
  | nil => intro sf f h _; exact h
  | cons ev rest ih =>
    intro sf f h hv
    cases ev with
    | acq k =>
      exact ih _ _ (sfInv_acquire h k) hv
    | rel k =>
      obtain ⟨hpos, hv'⟩ := hv
      exact ih _ _ (sfInv_release h k hpos) hv'

theorem sfInv_empty_tables {K : Type} [DecidableEq K] {sf : SingleFlight K}
    {f : K → Nat} (h : SFInv sf f) (hz : ∀ k, f k = 0) :
    sf.locks = [] ∧ sf.refcounts = [] := by
  obtain ⟨h1, h2⟩ := h
  constructor
  · rcases hl : sf.locks with _ | ⟨a, rest⟩
    · rfl
    · have : a ∈ sf.locks := by rw [hl]; exact List.mem_cons_self a rest
      have := (h1 a).mp this
      rw [hz a] at this
      omega
  · rcases hr : sf.refcounts with _ | ⟨⟨a, n⟩, rest⟩
    · rfl
    · have hlk : lookupA a sf.refcounts = some n := by
        rw [hr, lookupA_cons, if_pos rfl]
      have h2a := h2 a
      rw [hz a, if_neg (by omega)] at h2a
      rw [h2a] at hlk
      exact absurd hlk (by simp)

/-- C1: after any well-formed history of SingleFlight acquire/release cycles
(any interleaving of concurrent cycles, including releases performed on
exceptional exits) in which every acquire has been released, both the lock
table and the refcount table are empty. -/
theorem singleflight_no_lock_leak {K : Type} [DecidableEq K]
    (trace : List (SFEvent K))
    (hvalid : SFValidFrom (fun _ => 0) trace)
    (hdone : ∀ k, sfNet (fun _ => (0 : Nat)) trace k = 0) :
    ((SingleFlight.empty K).run trace).locks = [] ∧
      ((SingleFlight.empty K).run trace).refcounts = [] := by
  have hinv : SFInv (SingleFlight.empty K) (fun _ => 0) := by
    constructor
    · intro k; simp [SingleFlight.empty]
    · intro k; simp [SingleFlight.empty, lookupA]
  exact sfInv_empty_tables (sfInv_run trace _ _ hinv hvalid) hdone

/-- C1 witness: a concrete completed cycle history on key `0` leaves both
tables empty. -/
theorem singleflight_no_lock_leak_witness :
    SFValidFrom (fun _ => (0 : Nat)) [SFEvent.acq 0, SFEvent.rel 0] ∧
      (∀ k, sfNet (fun _ => (0 : Nat)) [SFEvent.acq 0, SFEvent.rel 0] k = 0) ∧
      (((SingleFlight.empty Nat).run [SFEvent.acq 0, SFEvent.rel 0]).locks = []
        ∧ ((SingleFlight.empty Nat).run
            [SFEvent.acq 0, SFEvent.rel 0]).refcounts = []) := by
  refine ⟨?_, ?_, ?_⟩
  · simp [SFValidFrom, bumpF, decF]
  · intro k
    by_cases hk : k = 0 <;> simp [sfNet, bumpF, decF, hk]
  · exact singleflight_no_lock_leak _ (by simp [SFValidFrom, bumpF, decF])
      (by intro k; by_cases hk : k = 0 <;> simp [sfNet, bumpF, decF, hk])

/- ---------------------------------------------------------------------
   Manager-tier helper lemmas
   --------------------------------------------------------------------- -/

theorem set_memory {V : Type} (s : ManagerState V) (now : Nat) (k : CKey)
    (v : V) (ttl : Option Nat) :
    (s.set now k v ttl).memory =
      memInsert s.memory s.memSize k (mkEntry now v ttl) := by
  cases hp : s.persistenceEnabled <;> cases ha : s.asyncPersist <;>
    simp [ManagerState.set, hp, ha]

theorem set_memSize {V : Type} (s : ManagerState V) (now : Nat) (k : CKey)
    (v : V) (ttl : Option Nat) : (s.set now k v ttl).memSize = s.memSize := by
  cases hp : s.persistenceEnabled <;> cases ha : s.asyncPersist <;>
    simp [ManagerState.set, hp, ha]

theorem lookupA_memInsert_self {V : Type} (mem : List (CKey × CacheEntry V))
    (n : Nat) (hn : 0 < n) (k : CKey) (e : CacheEntry V) :
    lookupA k (memInsert mem n k e) = some e := by
  obtain ⟨m, rfl⟩ : ∃ m, n = m + 1 := ⟨n - 1, by omega⟩
  simp [memInsert, dictSet, List.take_succ_cons, lookupA_cons]

theorem memInsert_memory_eq {V : Type} (mem : List (CKey × CacheEntry V))
    (m : Nat) (k : CKey) (e : CacheEntry V) :
    memInsert mem (m + 1) k e =
      (k, e) :: (mem.filter (fun p => !(p.1 = k : Bool))).take m := by
  simp [memInsert, dictSet, List.take_succ_cons]

theorem isExpired_mkEntry_false {V : Type} (now : Nat) (v : V)
    (ttl : Option Nat) (now' : Nat)
    (h : ∀ t, ttl = some t → now' < now + t) :
    isExpired (mkEntry now v ttl) now' = false := by
  cases ttl with
  | none => rfl
  | some t =>
    have := h t rfl
    simp [isExpired, mkEntry]
    omega

/- ---------------------------------------------------------------------
   C4: get after set, before expiry, returns the written value
   --------------------------------------------------------------------- -/

/-- C4: a `get` performed right after `set(namespace, version, key, value)`
and before any TTL expiry returns the written value (the memory tier has
capacity at least one, so the fresh write is resident). -/
theorem get_after_set {V : Type} (s : ManagerState V) (now : Nat) (k : CKey)
    (v : V) (ttl : Option Nat) (now' : Nat)
    (hcap : 0 < s.memSize)
    (hunexp : ∀ t, ttl = some t → now' < now + t) :
    ((s.set now k v ttl).get now' k).1 = some v := by
  have hm : lookupA k (s.set now k v ttl).memory = some (mkEntry now v ttl) := by
    rw [set_memory]
    exact lookupA_memInsert_self _ _ hcap _ _
  simp only [ManagerState.get, hm]
  rw [isExpired_mkEntry_false now v ttl now' hunexp]
  simp [mkEntry]

/-- C4 witness: a concrete write with no TTL is immediately readable. -/
theorem get_after_set_witness :
    0 < (freshManager 2 ([] : List (CKey × CacheEntry Nat))).memSize ∧
      (((freshManager 2 ([] : List (CKey × CacheEntry Nat))).set 5
          ⟨['n'], ['v'], ['k']⟩ 7 none).get 5 ⟨['n'], ['v'], ['k']⟩).1 =
        some 7 :=
  ⟨by decide,
    get_after_set (freshManager 2 []) 5 ⟨['n'], ['v'], ['k']⟩ 7 none 5
      (by decide) (fun t ht => by cases ht)⟩

/- ---------------------------------------------------------------------
   C5: get after TTL expiry misses and purges the memory entry
   --------------------------------------------------------------------- -/

/-- C5: once the TTL of a freshly written entry has elapsed, `get` returns
absent and lazily removes the expired entry from the memory tier.  The
persistent tier must not hold a conflicting unexpired stale binding for the
slot (which is the case when the slot is new or persistence is
synchronous). -/
theorem get_after_expiry {V : Type} (s : ManagerState V) (now : Nat) (k : CKey)
    (v : V) (t : Nat) (now' : Nat)
    (hcap : 0 < s.memSize)
    (helapsed : now + t ≤ now')
    (hstale : lookupA k s.persistent = none ∨
      (s.persistenceEnabled = true ∧ s.asyncPersist = false)) :
    ((s.set now k v (some t)).get now' k).1 = none ∧
      lookupA k (((s.set now k v (some t)).get now' k).2).memory = none := by
  have hm : lookupA k (memInsert s.memory s.memSize k (mkEntry now v (some t)))
      = some (mkEntry now v (some t)) :=
    lookupA_memInsert_self _ _ hcap _ _
  have hex : isExpired (mkEntry now v (some t)) now' = true := by
    simp [isExpired, mkEntry]
    omega
  cases hp : s.persistenceEnabled <;> cases ha : s.asyncPersist
  · rcases hstale with hnone | ⟨hpe, _⟩
    · simp [ManagerState.get, hm, hex, ManagerState.getPersistent,
        ManagerState.set, hp, ha, hnone, lookupA_dictDel_self]
    · rw [hp] at hpe; cases hpe
  · rcases hstale with hnone | ⟨hpe, _⟩
    · simp [ManagerState.get, hm, hex, ManagerState.getPersistent,
        ManagerState.set, hp, ha, hnone, lookupA_dictDel_self]
    · rw [hp] at hpe; cases hpe
  · simp [ManagerState.get, hm, hex, ManagerState.getPersistent,
      ManagerState.set, hp, ha, lookupA_dictSet_self, lookupA_dictDel_self]
  · rcases hstale with hnone | ⟨_, hap⟩
    · simp [ManagerState.get, hm, hex, ManagerState.getPersistent,
        ManagerState.set, hp, ha, hnone, lookupA_dictDel_self]
    · rw [ha] at hap; cases hap

/-- C5 witness: a concrete 1-tick TTL entry is absent two ticks later and has
been purged from the memory tier. -/
theorem get_after_expiry_witness :
    (((freshManager 2 ([] : List (CKey × CacheEntry Nat))).set 0
        ⟨['n'], ['v'], ['k']⟩ 7 (some 1)).get 2 ⟨['n'], ['v'], ['k']⟩).1 =
        none ∧
      lookupA ⟨['n'], ['v'], ['k']⟩
        ((((freshManager 2 ([] : List (CKey × CacheEntry Nat))).set 0
            ⟨['n'], ['v'], ['k']⟩ 7 (some 1)).get 2
              ⟨['n'], ['v'], ['k']⟩).2).memory = none :=
  get_after_expiry (freshManager 2 []) 0 ⟨['n'], ['v'], ['k']⟩ 7 1 2
    (by decide) (by omega) (Or.inl rfl)

/- ---------------------------------------------------------------------
   C8: memory-tier eviction never touches the persistent tier
   --------------------------------------------------------------------- -/

/-- C8: a `set` (which performs any capacity eviction on the memory tier)
leaves the persistent record of every other slot unchanged — in particular
the slots its eviction drops from memory. -/
theorem eviction_preserves_persistent {V : Type} (s : ManagerState V)
    (now : Nat) (k : CKey) (v : V) (ttl : Option Nat) (k' : CKey)
    (hne : k' ≠ k) :
    lookupA k' (s.set now k v ttl).persistent = lookupA k' s.persistent := by
  cases hp : s.persistenceEnabled <;> cases ha : s.asyncPersist <;>
    simp [ManagerState.set, hp, ha, lookupA_dictSet_ne _ _ _ _ hne]

/-- C8 witness: writing a second slot over a full memory tier leaves the
first slot's persistent record intact. -/
theorem eviction_preserves_persistent_witness :
    (⟨['a'], ['1'], ['x']⟩ : CKey) ≠ ⟨['a'], ['1'], ['y']⟩ ∧
      lookupA ⟨['a'], ['1'], ['x']⟩
        (((freshManager 1 [(⟨['a'], ['1'], ['x']⟩, ⟨3, 0, none⟩)] :
            ManagerState Nat).set 1 ⟨['a'], ['1'], ['y']⟩ 4 none)).persistent =
        lookupA ⟨['a'], ['1'], ['x']⟩
          (freshManager 1 [(⟨['a'], ['1'], ['x']⟩, ⟨3, 0, none⟩)] :
            ManagerState Nat).persistent :=
  ⟨by decide,
    eviction_preserves_persistent _ 1 ⟨['a'], ['1'], ['y']⟩ 4 none
      ⟨['a'], ['1'], ['x']⟩ (by decide)⟩

/- ---------------------------------------------------------------------
   C2: close drains every enqueued write into the persistent tier
   --------------------------------------------------------------------- -/

theorem lookupA_drainQueue {V : Type} :
    ∀ (q p : List (CKey × CacheEntry V)) (k : CKey),
      lookupA k (drainQueue p q) =
        match lookupA k q.reverse with
        | some e => some e
        | none => lookupA k p := by
  intro q
  induction q with
  | nil => intro p k; simp [drainQueue, lookupA]
  | cons qe rest ih =>
    intro p k
    obtain ⟨a, e⟩ := qe
    simp only [drainQueue, List.reverse_cons]
    rw [ih, lookupA_append]
    rcases hlt : lookupA k rest.reverse with _ | e'
    · by_cases hak : a = k
      · simp [lookupA_cons, hak, lookupA_dictSet_self, lookupA]
      · rw [lookupA_dictSet_ne p a k e (fun h => hak h.symm)]
        simp [lookupA_cons, hak, lookupA]
    · rfl

/-- C2: `close()` drains the whole write queue: afterwards the queue is
empty, the persistent tier holds the last enqueued write of every queued
slot, and a fresh manager opened on the resulting persistent store
retrieves that write (while it is unexpired). -/
theorem close_drains_queue {V : Type} (s : ManagerState V) (k : CKey)
    (e : CacheEntry V) (now' ms : Nat)
    (hlast : lastWrite s.queue k = some e)
    (hunexp : ∀ t, e.expires_at = some t → now' < t) :
    s.close.queue = [] ∧
      lookupA k s.close.persistent = some e ∧
      ((freshManager ms s.close.persistent).get now' k).1 = some e.value := by
  have hpers : lookupA k s.close.persistent = some e := by
    simp only [ManagerState.close, ManagerState.flush]
    rw [lookupA_drainQueue]
    rw [lastWrite] at hlast
    simp [hlast]
  refine ⟨rfl, hpers, ?_⟩
  have hexp : isExpired e now' = false := by
    rcases he : e.expires_at with _ | t
    · simp [isExpired, he]
    · have := hunexp t he
      simp [isExpired, he]
      omega
  simp [ManagerState.get, freshManager, lookupA, ManagerState.getPersistent,
    hpers, hexp]

/-- C2 witness: two queued writes for distinct slots are both retrievable
from a fresh manager after `close()`. -/
theorem close_drains_queue_witness :
    lastWrite [((⟨['n'], ['v'], ['a']⟩ : CKey), (⟨1, 0, none⟩ : CacheEntry Nat)),
        (⟨['n'], ['v'], ['b']⟩, ⟨2, 0, none⟩)] ⟨['n'], ['v'], ['b']⟩ =
      some ⟨2, 0, none⟩ ∧
      ((freshManager 2
          (ManagerState.close
            ⟨[], 2, [],
              [((⟨['n'], ['v'], ['a']⟩ : CKey), (⟨1, 0, none⟩ : CacheEntry Nat)),
                (⟨['n'], ['v'], ['b']⟩, ⟨2, 0, none⟩)], true, true⟩).persistent).get
          9 ⟨['n'], ['v'], ['b']⟩).1 = some (2 : Nat) :=
  ⟨by decide,
    (close_drains_queue
      ⟨[], 2, [],
        [((⟨['n'], ['v'], ['a']⟩ : CKey), (⟨1, 0, none⟩ : CacheEntry Nat)),
          (⟨['n'], ['v'], ['b']⟩, ⟨2, 0, none⟩)], true, true⟩
      ⟨['n'], ['v'], ['b']⟩ ⟨2, 0, none⟩ 9 2 (by decide)
      (fun t ht => by cases ht)).2.2⟩

/- ---------------------------------------------------------------------
   C6: dump emits one record per visible entry, always carrying expires_at
   --------------------------------------------------------------------- -/

theorem recKey_mkRec {V : Type} (k : CKey) (e : CacheEntry V) :
    recKey (mkRec k e) = k := rfl

theorem recfilter_nil {V : Type} (k : CKey) :
    ∀ l : List (CKey × CacheEntry V), (∀ p ∈ l, p.1 ≠ k) →
      (l.map (fun p => mkRec p.1 p.2)).filter
        (fun r => (recKey r = k : Bool)) = [] := by
  intro l
  induction l with
  | nil => intro _; rfl
  | cons p rest ih =>
    intro h
    have hp : p.1 ≠ k := h p (List.mem_cons_self p rest)
    simp only [List.map_cons, List.filter_cons, recKey_mkRec]
    rw [if_neg (by simp [hp])]
    exact ih (fun q hq => h q (List.mem_cons_of_mem _ hq))

/-- C6: every record `dump()` returns mirrors a visible entry (hence always
carries that entry's `expires_at` field), and after a `set` the dump
(unfiltered or filtered to the written namespace) contains exactly one
record for the written slot, whose `expires_at` is null when no TTL was
given and `now + ttl` when one was. -/
theorem dump_includes_expires_at {V : Type} :
    (∀ (s : ManagerState V) (nsF : Option Str) (r : DumpRec V),
      r ∈ s.dump nsF → ∃ p, p ∈ visibleEntries s ∧ r = mkRec p.1 p.2) ∧
    (∀ (s : ManagerState V) (now : Nat) (k : CKey) (v : V) (ttl : Option Nat)
        (nsF : Option Str), 0 < s.memSize → (nsF = none ∨ nsF = some k.ns) →
      ((s.set now k v ttl).dump nsF).filter
          (fun r => (recKey r = k : Bool)) = [mkRec k (mkEntry now v ttl)] ∧
        (mkRec k (mkEntry now v ttl)).expires_at =
          ttl.map (fun d => now + d)) := by
  constructor
  · intro s nsF r hr
    simp only [ManagerState.dump, List.mem_map] at hr
    obtain ⟨p, hp, hrp⟩ := hr
    exact ⟨p, List.mem_of_mem_filter hp, hrp.symm⟩
  · intro s now k v ttl nsF hcap hns
    refine ⟨?_, rfl⟩
    obtain ⟨m, hms⟩ : ∃ m, s.memSize = m + 1 := ⟨s.memSize - 1, by omega⟩
    set e := mkEntry now v ttl with he
    have hmem : (s.set now k v ttl).memory =
        (k, e) :: (s.memory.filter (fun p => !(p.1 = k : Bool))).take m := by
      rw [set_memory, hms, memInsert_memory_eq]
    have hlk : lookupA k (s.set now k v ttl).memory = some e := by
      rw [hmem, lookupA_cons, if_pos rfl]
    have htail : ∀ p ∈ (s.memory.filter (fun p => !(p.1 = k : Bool))).take m,
        p.1 ≠ k := by
      intro p hp
      have := List.mem_filter.mp (List.take_subset m _ hp)
      simpa using this.2
    have hpers : ∀ p ∈ (s.set now k v ttl).persistent.filter
        (fun p => (lookupA p.1 (s.set now k v ttl).memory).isNone),
        p.1 ≠ k := by
      intro p hp hpk
      have := (List.mem_filter.mp hp).2
      rw [hpk, hlk] at this
      simp at this
    have hvis : visibleEntries (s.set now k v ttl) =
        (k, e) :: ((s.memory.filter (fun p => !(p.1 = k : Bool))).take m ++
          (s.set now k v ttl).persistent.filter
            (fun p => (lookupA p.1 (s.set now k v ttl).memory).isNone)) := by
      rw [visibleEntries, hmem]
      rfl
    have hrest : ∀ p ∈ ((s.memory.filter (fun p => !(p.1 = k : Bool))).take m ++
        (s.set now k v ttl).persistent.filter
          (fun p => (lookupA p.1 (s.set now k v ttl).memory).isNone)),
        p.1 ≠ k := by
      intro p hp
      rcases List.mem_append.mp hp with h1 | h2
      · exact htail p h1
      · exact hpers p h2
    rw [ManagerState.dump, hvis]
    rcases hns with rfl | rfl
    · rw [List.filter_cons, if_pos rfl, List.map_cons, List.filter_cons,
        recKey_mkRec, if_pos (by simp)]
      rw [recfilter_nil k _ (fun p hp => hrest p (List.mem_of_mem_filter hp))]
    · rw [List.filter_cons, if_pos (by simp), List.map_cons, List.filter_cons,
        recKey_mkRec, if_pos (by simp)]
      rw [recfilter_nil k _ (fun p hp => hrest p (List.mem_of_mem_filter hp))]

/-- C6 witness: after one TTL write and one TTL-less write the dump carries
exactly one record for each slot, with `expires_at` populated and null
respectively. -/
theorem dump_includes_expires_at_witness :
    0 < (freshManager 2 ([] : List (CKey × CacheEntry Nat))).memSize ∧
      (((freshManager 2 ([] : List (CKey × CacheEntry Nat))).set 4
            ⟨['n'], ['v'], ['k']⟩ 9 (some 6)).dump none).filter
          (fun r => (recKey r = (⟨['n'], ['v'], ['k']⟩ : CKey) : Bool)) =
        [mkRec ⟨['n'], ['v'], ['k']⟩ (mkEntry 4 9 (some 6))] ∧
      (mkRec (⟨['n'], ['v'], ['k']⟩ : CKey)
        (mkEntry 4 (9 : Nat) (some 6))).expires_at = some 10 :=
  ⟨by decide,
    (dump_includes_expires_at.2 (freshManager 2 []) 4 ⟨['n'], ['v'], ['k']⟩ 9
      (some 6) none (by decide) (Or.inl rfl)).1,
    by decide⟩

/- ---------------------------------------------------------------------
   C7: key derivation canonicalizes argument order
   --------------------------------------------------------------------- -/

theorem lookupA_perm {K V : Type} [DecidableEq K]
    {l1 l2 : List (K × V)} (h : l1.Perm l2) :
    (l1.map Prod.fst).Nodup → ∀ k, lookupA k l1 = lookupA k l2 := by
  induction h with
  | nil => intro _ _; rfl
  | cons x h ih =>
    intro hnd k
    obtain ⟨a, b⟩ := x
    rw [lookupA_cons, lookupA_cons]
    by_cases hak : a = k
    · simp [hak]
    · simp only [hak, if_false]
      refine ih ?_ k
      simp only [List.map_cons] at hnd
      exact hnd.of_cons
  | swap x y l =>
    intro hnd k
    obtain ⟨a, b⟩ := x
    obtain ⟨c, d⟩ := y
    have hne : c ≠ a := by
      simp only [List.map_cons, List.nodup_cons, List.mem_cons] at hnd
      exact fun e => hnd.1 (Or.inl e)
    rw [lookupA_cons, lookupA_cons, lookupA_cons, lookupA_cons]
    by_cases hck : c = k
    · have : ¬ a = k := fun e => hne (hck.trans e.symm)
      simp [hck, this]
    · by_cases hak2 : a = k <;> simp [hck, hak2]
  | trans h1 h2 ih1 ih2 =>
    intro hnd k
    have hmid := ((h1.map Prod.fst).nodup_iff).mp hnd
    exact (ih1 hnd k).trans (ih2 hmid k)

theorem canonicalizeArgs_perm_eq {l1 l2 : List (Str × Str)}
    (h : l1.Perm l2) (hnd : (l1.map Prod.fst).Nodup) :
    canonicalizeArgs l1 = canonicalizeArgs l2 := by
  have hkeys : sortedKeys l1 = sortedKeys l2 := by
    have hs1 : List.Sorted (fun a b : Str => a ≤ b) (sortedKeys l1) :=
      List.sorted_insertionSort _ _
    have hs2 : List.Sorted (fun a b : Str => a ≤ b) (sortedKeys l2) :=
      List.sorted_insertionSort _ _
    have hp : (sortedKeys l1).Perm (sortedKeys l2) :=
      ((List.perm_insertionSort _ _).trans (h.map Prod.fst)).trans
        (List.perm_insertionSort _ _).symm
    exact List.eq_of_perm_of_sorted hp hs1 hs2
  have hfun : (fun k => (k, (lookupA k l1).getD [])) =
      (fun k => (k, (lookupA k l2).getD ([] : Str))) := by
    funext k
    rw [lookupA_perm h hnd k]
  rw [canonicalizeArgs, canonicalizeArgs, hkeys, hfun]

/-- C7: key derivation canonicalizes the argument ordering: two
presentations of the same argument mapping that differ only in key order
derive the same cache key. -/
theorem cache_key_canonicalizes_order (tool : ToolInstance)
    (args1 args2 : List (Str × Str)) (hperm : args1.Perm args2)
    (hnd : (args1.map Prod.fst).Nodup) :
    deriveCacheKey tool args1 = deriveCacheKey tool args2 := by
  unfold deriveCacheKey
  rw [canonicalizeArgs_perm_eq hperm hnd]

/-- C7 witness: swapping the order of two concrete arguments leaves the
derived key unchanged. -/
theorem cache_key_canonicalizes_order_witness :
    ([(['b'], ['1']), (['a'], ['2'])] : List (Str × Str)).Perm
        [(['a'], ['2']), (['b'], ['1'])] ∧
      deriveCacheKey ⟨['T'], ['T'], ['v'], 0⟩ [(['b'], ['1']), (['a'], ['2'])] =
        deriveCacheKey ⟨['T'], ['T'], ['v'], 0⟩
          [(['a'], ['2']), (['b'], ['1'])] :=
  ⟨List.Perm.swap _ _ _,
    cache_key_canonicalizes_order ⟨['T'], ['T'], ['v'], 0⟩ _ _
      (List.Perm.swap _ _ _) (by decide)⟩

/- ---------------------------------------------------------------------
   C3: cache keys are instance-independent; producer runs once
   --------------------------------------------------------------------- -/

theorem get_memSize_eq {V : Type} (s : ManagerState V) (now : Nat) (k : CKey) :
    ((s.get now k).2).memSize = s.memSize := by
  rcases hm : lookupA k s.memory with _ | e
  · rcases hp : lookupA k s.persistent with _ | e'
    · simp [ManagerState.get, ManagerState.getPersistent, hm, hp]
    · by_cases hex : isExpired e' now <;>
        simp [ManagerState.get, ManagerState.getPersistent, hm, hp, hex]
  · by_cases hex : isExpired e now
    · rcases hp : lookupA k s.persistent with _ | e'
      · simp [ManagerState.get, ManagerState.getPersistent, hm, hex, hp]
      · by_cases hex' : isExpired e' now <;>
          simp [ManagerState.get, ManagerState.getPersistent, hm, hex, hp,
            hex']
    · simp [ManagerState.get, hm, hex]

/-- C3: the derived cache key is the same for two distinct runtime instances
of the same tool (same name, type and declared cache version, arbitrary
instance identities); consequently, when the first cached call misses, a
second cached call through the other instance is a hit, returns the same
value, and the producer has run exactly once across the two calls. -/
theorem cache_key_instance_independence {V : Type} (s : ManagerState V)
    (now : Nat) (t1 t2 : ToolInstance) (args : List (Str × Str))
    (producer : Unit → V)
    (hname : t1.name = t2.name) (htype : t1.toolType = t2.toolType)
    (hver : t1.cacheVersion = t2.cacheVersion)
    (hcap : 0 < s.memSize)
    (hmiss : (s.get now
      ⟨t1.toolType, t1.cacheVersion, deriveCacheKey t1 args⟩).1 = none) :
    deriveCacheKey t1 args = deriveCacheKey t2 args ∧
      (cachedCall s now t1 args producer).2.2 +
        (cachedCall (cachedCall s now t1 args producer).2.1 now t2 args
          producer).2.2 = 1 ∧
      (cachedCall (cachedCall s now t1 args producer).2.1 now t2 args
          producer).1 = (cachedCall s now t1 args producer).1 := by
  have hkey : deriveCacheKey t1 args = deriveCacheKey t2 args := by
    unfold deriveCacheKey
    rw [hname, hver]
  refine ⟨hkey, ?_⟩
  rcases hg : s.get now
      ⟨t1.toolType, t1.cacheVersion, deriveCacheKey t1 args⟩ with ⟨r, s'⟩
  rw [hg] at hmiss
  simp only at hmiss
  subst hmiss
  have hfirst : cachedCall s now t1 args producer =
      (producer (), s'.set now
        ⟨t1.toolType, t1.cacheVersion, deriveCacheKey t1 args⟩
        (producer ()) none, 1) := by
    simp [cachedCall, hg]
  have hms' : 0 < s'.memSize := by
    have := get_memSize_eq s now
      ⟨t1.toolType, t1.cacheVersion, deriveCacheKey t1 args⟩
    rw [hg] at this
    simp only at this
    omega
  have hk2 : (⟨t2.toolType, t2.cacheVersion, deriveCacheKey t2 args⟩ : CKey) =
      ⟨t1.toolType, t1.cacheVersion, deriveCacheKey t1 args⟩ := by
    rw [htype, hver, hkey]
  have hm2 : lookupA ⟨t1.toolType, t1.cacheVersion, deriveCacheKey t1 args⟩
      (s'.set now ⟨t1.toolType, t1.cacheVersion, deriveCacheKey t1 args⟩
        (producer ()) none).memory = some (mkEntry now (producer ()) none) := by
    rw [set_memory]
    exact lookupA_memInsert_self _ _ hms' _ _
  have hsecond : cachedCall (s'.set now
      ⟨t1.toolType, t1.cacheVersion, deriveCacheKey t1 args⟩
      (producer ()) none) now t2 args producer =
      (producer (), s'.set now
        ⟨t1.toolType, t1.cacheVersion, deriveCacheKey t1 args⟩
        (producer ()) none, 0) := by
    simp only [cachedCall, hk2, ManagerState.get, hm2]
    have : isExpired (mkEntry now (producer ()) none) now = false := rfl
    rw [this]
    simp [mkEntry]
  rw [hfirst]
  simp only
  rw [hsecond]
  exact ⟨rfl, rfl⟩

/-- C3 witness: two instances of the same tool differing only in instance
identity make one producer call across two cached calls and agree on the
returned value. -/
theorem cache_key_instance_independence_witness :
    ((freshManager 2 ([] : List (CKey × CacheEntry Nat))).get 0
        ⟨['T'], ['1'], deriveCacheKey ⟨['T'], ['T'], ['1'], 0⟩ []⟩).1 = none ∧
      deriveCacheKey ⟨['T'], ['T'], ['1'], 0⟩ [] =
        deriveCacheKey ⟨['T'], ['T'], ['1'], 1⟩ [] ∧
      (cachedCall (freshManager 2 []) 0 ⟨['T'], ['T'], ['1'], 0⟩ []
          (fun _ => (42 : Nat))).2.2 +
        (cachedCall (cachedCall (freshManager 2 []) 0 ⟨['T'], ['T'], ['1'], 0⟩
            [] (fun _ => (42 : Nat))).2.1 0 ⟨['T'], ['T'], ['1'], 1⟩ []
          (fun _ => (42 : Nat))).2.2 = 1 :=
  have h := cache_key_instance_independence (freshManager 2 []) 0
    ⟨['T'], ['T'], ['1'], 0⟩ ⟨['T'], ['T'], ['1'], 1⟩ [] (fun _ => (42 : Nat))
    rfl rfl rfl (by decide) (by decide)
  ⟨by decide, h.1, h.2.1⟩

/- ---------------------------------------------------------------------
   C10: ToolNameMapper round-trips shortened names
   --------------------------------------------------------------------- -/

theorem findCounterAux_free (s2o : List (Str × Str)) (base : Str) :
    ∀ (fuel start : Nat),
      (∃ i, i < fuel ∧ lookupA (counterCandidate base (start + i)) s2o = none) →
      lookupA (counterCandidate base (findCounterAux s2o base start fuel)) s2o
        = none := by
  intro fuel
  induction fuel with
  | zero =>
    rintro start ⟨i, hi, _⟩
    omega
  | succ n ih =>
    rintro start ⟨i, hi, hfree⟩
    by_cases h0 : lookupA (counterCandidate base start) s2o = none
    · simpa [findCounterAux, h0] using h0
    · rw [findCounterAux, if_neg h0]
      apply ih
      have hi0 : i ≠ 0 := by
        intro h
        rw [h, Nat.add_zero] at hfree
        exact h0 hfree
      exact ⟨i - 1, by omega, by
        have : start + 1 + (i - 1) = start + i := by omega
        rw [this]
        exact hfree⟩

theorem maxKeyLen_bound (m : List (Str × Str)) :
    ∀ p ∈ m, p.1.length ≤ maxKeyLen m := by
  induction m with
  | nil => intro p hp; cases hp
  | cons q rest ih =>
    intro p hp
    rcases List.mem_cons.mp hp with h1 | h2
    · subst h1
      simp only [maxKeyLen, List.foldr_cons]
      exact Nat.le_max_left _ _
    · have := ih p h2
      simp only [maxKeyLen, List.foldr_cons]
      exact le_trans this (Nat.le_max_right _ _)

theorem natChars_length_pow (k : Nat) :
    (natChars (10 ^ (k + 1))).length = k + 2 := by
  have h1 : (Nat.digits 10 (10 ^ (k + 1))).length =
      Nat.log 10 (10 ^ (k + 1)) + 1 :=
    Nat.digits_len 10 _ (by norm_num) (by positivity)
  have h2 : Nat.log 10 (10 ^ (k + 1)) = k + 1 := Nat.log_pow (by norm_num) _
  rw [natChars, List.length_reverse, List.length_map, h1, h2]

theorem counterCandidate_length (base : Str) (c : Nat) :
    (counterCandidate base c).length = base.length + 1 + (natChars c).length
    := by
  simp [counterCandidate]
  omega

theorem findCounter_free (s2o : List (Str × Str)) (base : Str) :
    lookupA (counterCandidate base (findCounter s2o base)) s2o = none := by
  apply findCounterAux_free
  have hpow : 10 ≤ 10 ^ (maxKeyLen s2o + 1) := by
    calc (10 : Nat) = 10 ^ 1 := by norm_num
    _ ≤ 10 ^ (maxKeyLen s2o + 1) := Nat.pow_le_pow_right (by norm_num) (by omega)
  refine ⟨10 ^ (maxKeyLen s2o + 1) - 2, ?_, ?_⟩
  · simp only [findCounterFuel]
    omega
  · have h2 : 2 + (10 ^ (maxKeyLen s2o + 1) - 2) = 10 ^ (maxKeyLen s2o + 1) :=
      by omega
    rw [h2, lookupA_eq_none_iff]
    intro v hv
    have hkey := maxKeyLen_bound s2o _ hv
    simp only at hkey
    have hcand : (counterCandidate base (10 ^ (maxKeyLen s2o + 1))).length =
        base.length + 1 + (maxKeyLen s2o + 2) := by
      rw [counterCandidate_length, natChars_length_pow]
    omega

theorem mapperInv_empty : MapperInv ToolNameMapper.empty := by
  constructor
  · intro o s h; cases h
  · intro s o h; cases h

theorem newShort_free_or_owner (m : ToolNameMapper) (x : Str) (L : Nat) :
    lookupA (m.newShort x L) m.short_to_original = none ∨
      lookupA (m.newShort x L) m.short_to_original = some x := by
  unfold ToolNameMapper.newShort
  rcases hs : lookupA (shorten_tool_name x L) m.short_to_original with _ | owner
  · left
    simp [hs]
  · by_cases ho : owner = x
    · right
      simp only [hs, if_pos ho]
      rw [ho]
    · left
      simp only [hs, if_neg ho]
      exact findCounter_free m.short_to_original _

theorem mapperInv_get_shortened (m : ToolNameMapper) (x : Str) (L : Nat)
    (hinv : MapperInv m) : MapperInv ((m.get_shortened x L).2) := by
  rcases hc : lookupA x m.original_to_short with _ | cached
  · have hres : (m.get_shortened x L).2 =
        { m with
          original_to_short := dictSet m.original_to_short x (m.newShort x L)
          short_to_original :=
            dictSet m.short_to_original (m.newShort x L) x } := by
      simp [ToolNameMapper.get_shortened, hc]
    rw [hres]
    obtain ⟨inv1, inv2⟩ := hinv
    have hfree := newShort_free_or_owner m x L
    constructor
    · intro o s h
      simp only at h ⊢
      by_cases ho : o = x
      · subst ho
        rw [lookupA_dictSet_self] at h
        injection h with h
        subst h
        exact lookupA_dictSet_self _ _ _
      · rw [lookupA_dictSet_ne _ _ _ _ ho] at h
        have hback := inv1 o s h
        have hsne : s ≠ m.newShort x L := by
          intro he
          subst he
          rcases hfree with hf | hf
          · rw [hf] at hback; cases hback
          · rw [hf] at hback
            injection hback with hxo
            exact ho hxo.symm
        rw [lookupA_dictSet_ne _ _ _ _ hsne]
        exact hback
    · intro s o h
      simp only at h ⊢
      by_cases hsx : s = m.newShort x L
      · subst hsx
        rw [lookupA_dictSet_self] at h
        injection h with h
        subst h
        exact lookupA_dictSet_self _ _ _
      · rw [lookupA_dictSet_ne _ _ _ _ hsx] at h
        have hback := inv2 s o h
        have hox : o ≠ x := by
          intro he
          subst he
          rw [hc] at hback
          cases hback
        rw [lookupA_dictSet_ne _ _ _ _ hox]
        exact hback
  · have hres : (m.get_shortened x L).2 = m := by
      simp [ToolNameMapper.get_shortened, hc]
    rw [hres]
    exact hinv

theorem mapperInv_add_alias (m : ToolNameMapper) (a primary : Str)
    (hinv : MapperInv m) : MapperInv (m.add_alias a primary) := by
  obtain ⟨inv1, inv2⟩ := hinv
  exact ⟨inv1, inv2⟩

theorem reachable_mapperInv (m : ToolNameMapper)
    (h : ToolNameMapper.Reachable m) : MapperInv m := by
  induction h with
  | empty => exact mapperInv_empty
  | shorten m x L _ ih => exact mapperInv_get_shortened m x L ih
  | addAlias m a primary _ ih => exact mapperInv_add_alias m a primary ih

/-- C10: for every reachable mapper state, shortening a name and resolving
the result back through `get_original` returns the original name — also
when the shortened form collided and received a numeric counter suffix. -/
theorem mapper_roundtrip (m : ToolNameMapper) (x : Str) (L : Nat)
    (h : ToolNameMapper.Reachable m) :
    ((m.get_shortened x L).2).get_original ((m.get_shortened x L).1) = x := by
  obtain ⟨inv1, _⟩ := reachable_mapperInv m h
  rcases hc : lookupA x m.original_to_short with _ | cached
  · have hres : m.get_shortened x L = (m.newShort x L,
        { m with
          original_to_short := dictSet m.original_to_short x (m.newShort x L)
          short_to_original :=
            dictSet m.short_to_original (m.newShort x L) x }) := by
      simp [ToolNameMapper.get_shortened, hc]
    rw [hres, ToolNameMapper.get_original]
    simp only
    rw [lookupA_dictSet_self]
    rfl
  · have hres : m.get_shortened x L = (cached, m) := by
      simp [ToolNameMapper.get_shortened, hc]
    rw [hres, ToolNameMapper.get_original]
    simp only
    rw [inv1 x cached hc]
    rfl

/-- C10 witness: a freshly constructed mapper round-trips a concrete name
whose shortened form is a strict truncation. -/
theorem mapper_roundtrip_witness :
    ToolNameMapper.Reachable ToolNameMapper.empty ∧
      ((ToolNameMapper.empty.get_shortened
          ['a', 'b', '_', 'c', 'd', 'e', 'f', '_', 'g'] 6).2).get_original
        ((ToolNameMapper.empty.get_shortened
          ['a', 'b', '_', 'c', 'd', 'e', 'f', '_', 'g'] 6).1) =
        ['a', 'b', '_', 'c', 'd', 'e', 'f', '_', 'g'] :=
  ⟨ToolNameMapper.Reachable.empty,
    mapper_roundtrip ToolNameMapper.empty
      ['a', 'b', '_', 'c', 'd', 'e', 'f', '_', 'g'] 6
      ToolNameMapper.Reachable.empty⟩

/-- C9 witness: a concrete overlong name is truncated within the bound and a
fitting name is returned unchanged. -/
theorem shorten_tool_name_length_bound_witness :
    0 < 5 ∧
      ((shorten_tool_name ['a', 'b', 'c'] 5).length ≤ 5 ∧
        (([('a' : Char), 'b', 'c'] : Str).length ≤ 5 →
          shorten_tool_name ['a', 'b', 'c'] 5 = ['a', 'b', 'c'])) :=
  ⟨by decide, shorten_tool_name_length_bound ['a', 'b', 'c'] 5 (by decide)⟩
